import Mathlib

/-!
A shallow embedding of the session lifecycle and capability mirroring engine of
the gmcpt proxy (proxy/proxy.go and client/sessmgr.go), together with theorems
checking the specification claims against it.

Sessions, errors and decoded argument values are represented by numeric
identities; the underlying MCP client (Connect, Ping, ListTools, CallTool,
json.Unmarshal, the HTTP default transport) is an external collaborator and is
modelled by oracle functions supplied as parameters.  Time is modelled by
recording the backoff durations (in milliseconds) that the loop waits out, and
the unbounded Go for loop is modelled with an explicit fuel argument.
-/

namespace Gmcpt

/-- Result of one call to clnt.Connect: either a fresh session (a numeric
session identity) or an error (a numeric code).  On error Connect returns a
nil session. -/
inductive ConnectOutcome where
  | ok (sid : Nat)
  | fail (e : Nat)
deriving DecidableEq

/-- How the connection loop inside withSession ends.  ok sid means a session
was obtained (and the action is then invoked on it); connErr e is the
establishment error returned when retry is disabled; cancelled is ctx.Err()
returned when the context is done during a backoff wait; noFuel is the model
artifact for runs longer than the supplied fuel. -/
inductive LoopOut where
  | ok (sid : Nat)
  | connErr (e : Nat)
  | cancelled
  | noFuel
deriving DecidableEq

/-- Result of the connection loop: its outcome, the list of backoff delays (in
milliseconds) it waited out, in order, and the number of Connect attempts it
made. -/
structure LoopResult where
  out : LoopOut
  delays : List Nat
  attempts : Nat
deriving DecidableEq

/-- The for loop in withSession (proxy.go lines 82-100, sessmgr.go lines
55-72): attempt Connect; on success stop; on failure return the error if
retry is disabled, return ctx.Err() if the context is done during the wait,
otherwise wait out the current backoff and continue with
backoff = min(backoff*2, cap).  connect gives the outcome of the i-th Connect
attempt and ctxDone says whether the context is done during the wait that
follows the i-th failed attempt. -/
def connectLoop (retry : Bool) (connect : Nat → ConnectOutcome) (ctxDone : Nat → Bool)
    (cap : Nat) : Nat → Nat → Nat → LoopResult
  | 0, _, _ => ⟨.noFuel, [], 0⟩
  | fuel + 1, a, b =>
    match connect a with
    | .ok sid => ⟨.ok sid, [], 1⟩
    | .fail e =>
      if !retry then ⟨.connErr e, [], 1⟩
      else if ctxDone a then ⟨.cancelled, [], 1⟩
      else
        let r := connectLoop retry connect ctxDone cap fuel (a + 1) (min (b * 2) cap)
        ⟨r.out, b :: r.delays, r.attempts + 1⟩

/-- The mutable state of the session manager: the cached session (prx.sess /
sm.sess, none when nil) and the retry flag (prx.retry / sm.Retry). -/
structure SMState where
  sess : Option Nat
  retry : Bool
deriving DecidableEq

/-- The environment one withSession call runs against: whether a Ping of the
cached session succeeds, the outcomes of successive Connect attempts, and
whether the context is done during the backoff wait after each failed
attempt. -/
structure WSInput where
  pingOk : Bool
  connect : Nat → ConnectOutcome
  ctxDone : Nat → Bool

/-- Observable result of one withSession call: its outcome (ok sid means the
action was invoked on session sid), the backoff delays waited, the number of
Connect attempts, whether the cached session was closed and discarded, and the
cached session left behind. -/
structure WSResult where
  out : LoopOut
  delays : List Nat
  attempts : Nat
  closedCached : Bool
  sessAfter : Option Nat
deriving DecidableEq

/-- The establishment half of withSession: run the connect loop and cache the
new session on success (on failure Connect left the cached session nil). -/
def establish (retry : Bool) (inp : WSInput) (cap fuel b : Nat) (closed : Bool) : WSResult :=
  match connectLoop retry inp.connect inp.ctxDone cap fuel 0 b with
  | ⟨.ok sid, delays, attempts⟩ => ⟨.ok sid, delays, attempts, closed, some sid⟩
  | ⟨o, delays, attempts⟩ => ⟨o, delays, attempts, closed, none⟩

/-- withSession (proxy.go lines 72-104, sessmgr.go lines 45-76): if a session
is cached and Ping fails, close and discard it; if no session is cached,
establish one via the connect loop; finally invoke the action on the session
(outcome ok). -/
def withSession (st : SMState) (inp : WSInput) (b cap fuel : Nat) : WSResult :=
  match st.sess with
  | some s =>
    if inp.pingOk then ⟨.ok s, [], 0, false, some s⟩
    else establish st.retry inp cap fuel b true
  | none => establish st.retry inp cap fuel b false

/-- Initial backoff of Proxy.withSession (proxy.go line 81: time.Second). -/
def proxyInitialBackoffMs : Nat := 1000

/-- Initial backoff of SessionManager.WithSession (sessmgr.go line 54:
250 * time.Millisecond). -/
def sessmgrInitialBackoffMs : Nat := 250

/-- Backoff ceiling of both connect loops (30 * time.Second). -/
def backoffCapMs : Nat := 30000

/-- One withSession call as a state transition: the new cached session is the
one the call left behind; the retry flag is not touched by withSession
itself. -/
def applyWS (st : SMState) (inp : WSInput) (b cap fuel : Nat) : SMState × WSResult :=
  let r := withSession st inp b cap fuel
  ({ st with sess := r.sessAfter }, r)

/-- The first withSession call of Proxy.Run (proxy.go line 371), whose action
is Proxy.initializeResult: when the action runs (outcome ok) it sets
prx.retry = true (proxy.go line 348). -/
def initPass (st : SMState) (inp : WSInput) (b cap fuel : Nat) : SMState × WSResult :=
  match applyWS st inp b cap fuel with
  | (st1, r) =>
    match r.out with
    | .ok _ => ({ st1 with retry := true }, r)
    | _ => (st1, r)

/-- A sequence of subsequent withSession calls (tool calls, prompt calls,
resource reads, synchronization passes), none of whose actions touch the
retry flag. -/
def runCalls (st : SMState) (b cap fuel : Nat) : List WSInput → SMState
  | [] => st
  | inp :: rest => runCalls (applyWS st inp b cap fuel).1 b cap fuel rest

/-- Claim C2: with no cached session and retry disabled, a failing connection
attempt makes withSession return that establishment error immediately: no
backoff wait, exactly one Connect attempt, and the action is not invoked
(the outcome is connErr, not ok). -/
theorem withSession_failFast (st : SMState) (inp : WSInput) (b cap fuel e : Nat)
    (hs : st.sess = none) (hr : st.retry = false) (hc : inp.connect 0 = .fail e)
    (hf : 0 < fuel) :
    withSession st inp b cap fuel = ⟨.connErr e, [], 1, false, none⟩ := by
  obtain ⟨fuel', rfl⟩ : ∃ k, fuel = k + 1 := ⟨fuel - 1, by omega⟩
  simp [withSession, establish, connectLoop, hs, hr, hc]

/-- Witness for C2 at a concrete input. -/
theorem withSession_failFast_witness :
    withSession ⟨none, false⟩ ⟨true, fun _ => .fail 7, fun _ => false⟩
      proxyInitialBackoffMs backoffCapMs 5 = ⟨.connErr 7, [], 1, false, none⟩ :=
  withSession_failFast ⟨none, false⟩ ⟨true, fun _ => .fail 7, fun _ => false⟩
    proxyInitialBackoffMs backoffCapMs 5 7 rfl rfl rfl (by decide)

theorem connectLoop_out_ok (retry : Bool) (connect : Nat → ConnectOutcome)
    (ctxDone : Nat → Bool) (cap : Nat) :
    ∀ (fuel a b sid : Nat),
      (connectLoop retry connect ctxDone cap fuel a b).out = .ok sid →
      ∃ k, connect k = .ok sid := by
  intro fuel
  induction fuel with
  | zero => intro a b sid h; simp [connectLoop] at h
  | succ n ih =>
    intro a b sid h
    rw [connectLoop] at h
    split at h
    · rename_i s heq
      have h' : LoopOut.ok s = LoopOut.ok sid := h
      cases h'
      exact ⟨a, heq⟩
    · rename_i e heq
      split at h
      · exact absurd (show LoopOut.connErr e = LoopOut.ok sid from h) (by simp)
      · split at h
        · exact absurd (show LoopOut.cancelled = LoopOut.ok sid from h) (by simp)
        · exact ih (a + 1) (min (b * 2) cap) sid h

theorem connectLoop_attempts_pos (retry : Bool) (connect : Nat → ConnectOutcome)
    (ctxDone : Nat → Bool) (cap fuel a b : Nat) (hf : 0 < fuel) :
    1 ≤ (connectLoop retry connect ctxDone cap fuel a b).attempts := by
  obtain ⟨fuel', rfl⟩ : ∃ k, fuel = k + 1 := ⟨fuel - 1, by omega⟩
  rw [connectLoop]
  split
  · exact Nat.le_refl 1
  · split
    · exact Nat.le_refl 1
    · split
      · exact Nat.le_refl 1
      · exact Nat.succ_le_succ (Nat.zero_le _)

theorem establish_out (retry : Bool) (inp : WSInput) (cap fuel b : Nat) (closed : Bool) :
    (establish retry inp cap fuel b closed).out =
      (connectLoop retry inp.connect inp.ctxDone cap fuel 0 b).out := by
  unfold establish
  generalize connectLoop retry inp.connect inp.ctxDone cap fuel 0 b = r
  obtain ⟨o, delays, attempts⟩ := r
  rcases o with sid | e | _ | _ <;> rfl

theorem establish_delays (retry : Bool) (inp : WSInput) (cap fuel b : Nat) (closed : Bool) :
    (establish retry inp cap fuel b closed).delays =
      (connectLoop retry inp.connect inp.ctxDone cap fuel 0 b).delays := by
  unfold establish
  generalize connectLoop retry inp.connect inp.ctxDone cap fuel 0 b = r
  obtain ⟨o, delays, attempts⟩ := r
  rcases o with sid | e | _ | _ <;> rfl

theorem establish_attempts (retry : Bool) (inp : WSInput) (cap fuel b : Nat) (closed : Bool) :
    (establish retry inp cap fuel b closed).attempts =
      (connectLoop retry inp.connect inp.ctxDone cap fuel 0 b).attempts := by
  unfold establish
  generalize connectLoop retry inp.connect inp.ctxDone cap fuel 0 b = r
  obtain ⟨o, delays, attempts⟩ := r
  rcases o with sid | e | _ | _ <;> rfl

theorem establish_closed (retry : Bool) (inp : WSInput) (cap fuel b : Nat) (closed : Bool) :
    (establish retry inp cap fuel b closed).closedCached = closed := by
  unfold establish
  generalize connectLoop retry inp.connect inp.ctxDone cap fuel 0 b = r
  obtain ⟨o, delays, attempts⟩ := r
  rcases o with sid | e | _ | _ <;> rfl

theorem establish_sessAfter_ok (retry : Bool) (inp : WSInput) (cap fuel b : Nat)
    (closed : Bool) :
    ∀ sid, (establish retry inp cap fuel b closed).out = .ok sid →
      (establish retry inp cap fuel b closed).sessAfter = some sid := by
  unfold establish
  generalize connectLoop retry inp.connect inp.ctxDone cap fuel 0 b = r
  obtain ⟨o, delays, attempts⟩ := r
  rcases o with s | e | _ | _ <;> intro sid h
  · have h' : LoopOut.ok s = LoopOut.ok sid := h
    cases h'
    rfl
  · exact absurd (show LoopOut.connErr e = LoopOut.ok sid from h) (by simp)
  · exact absurd (show LoopOut.cancelled = LoopOut.ok sid from h) (by simp)
  · exact absurd (show LoopOut.noFuel = LoopOut.ok sid from h) (by simp)

theorem withSession_noSess (st : SMState) (inp : WSInput) (b cap fuel : Nat)
    (hs : st.sess = none) :
    withSession st inp b cap fuel = establish st.retry inp cap fuel b false := by
  unfold withSession
  rw [hs]

theorem withSession_pingFail (st : SMState) (inp : WSInput) (b cap fuel s : Nat)
    (hs : st.sess = some s) (hp : inp.pingOk = false) :
    withSession st inp b cap fuel = establish st.retry inp cap fuel b true := by
  unfold withSession
  rw [hs]
  simp [hp]

theorem withSession_pingGood (st : SMState) (inp : WSInput) (b cap fuel s : Nat)
    (hs : st.sess = some s) (hp : inp.pingOk = true) :
    withSession st inp b cap fuel = ⟨.ok s, [], 0, false, some s⟩ := by
  unfold withSession
  rw [hs]
  simp [hp]

/-- Claim C6: with a cached session, a successful Ping makes withSession reuse
the cached session unchanged for the action, with no Connect attempt and no
close; a failed Ping makes it close and discard the cached session, attempt at
least one Connect, and any session the action then runs on came from a Connect
attempt and is cached afterwards. -/
theorem withSession_pingProbe (st : SMState) (inp : WSInput) (b cap fuel s : Nat)
    (hs : st.sess = some s) (hf : 0 < fuel) :
    (inp.pingOk = true →
      withSession st inp b cap fuel = ⟨.ok s, [], 0, false, some s⟩) ∧
    (inp.pingOk = false →
      (withSession st inp b cap fuel).closedCached = true ∧
      1 ≤ (withSession st inp b cap fuel).attempts ∧
      ∀ sid, (withSession st inp b cap fuel).out = .ok sid →
        (∃ k, inp.connect k = .ok sid) ∧
        (withSession st inp b cap fuel).sessAfter = some sid) := by
  constructor
  · intro hp
    exact withSession_pingGood st inp b cap fuel s hs hp
  · intro hp
    rw [withSession_pingFail st inp b cap fuel s hs hp]
    refine ⟨establish_closed _ _ _ _ _ _, ?_, ?_⟩
    · rw [establish_attempts]
      exact connectLoop_attempts_pos st.retry inp.connect inp.ctxDone cap fuel 0 b hf
    · intro sid h
      refine ⟨?_, establish_sessAfter_ok _ _ _ _ _ _ sid h⟩
      rw [establish_out] at h
      exact connectLoop_out_ok st.retry inp.connect inp.ctxDone cap fuel 0 b sid h

/-- Witness for C6 at a concrete input (cached session 4, Ping succeeds). -/
theorem withSession_pingProbe_witness :
    withSession ⟨some 4, true⟩ ⟨true, fun _ => .ok 9, fun _ => false⟩
      proxyInitialBackoffMs backoffCapMs 3 = ⟨.ok 4, [], 0, false, some 4⟩ :=
  (withSession_pingProbe ⟨some 4, true⟩ ⟨true, fun _ => .ok 9, fun _ => false⟩
    proxyInitialBackoffMs backoffCapMs 3 4 rfl (by decide)).1 rfl

theorem connectLoop_cancelled (connect : Nat → ConnectOutcome) (ctxDone : Nat → Bool)
    (cap : Nat) :
    ∀ (k fuel a b : Nat), k < fuel →
      (∀ i, i ≤ k → ∃ e, connect (a + i) = .fail e) →
      (∀ i, i < k → ctxDone (a + i) = false) →
      ctxDone (a + k) = true →
      (connectLoop true connect ctxDone cap fuel a b).out = .cancelled ∧
      (connectLoop true connect ctxDone cap fuel a b).attempts = k + 1 := by
  intro k
  induction k with
  | zero =>
    intro fuel a b hk hfail _ hlast
    obtain ⟨fuel', rfl⟩ : ∃ m, fuel = m + 1 := ⟨fuel - 1, by omega⟩
    obtain ⟨e, he⟩ := hfail 0 (Nat.le_refl 0)
    rw [Nat.add_zero] at he
    rw [Nat.add_zero] at hlast
    rw [connectLoop, he]
    simp [hlast]
  | succ k ih =>
    intro fuel a b hk hfail hdone hlast
    obtain ⟨fuel', rfl⟩ : ∃ m, fuel = m + 1 := ⟨fuel - 1, by omega⟩
    obtain ⟨e, he⟩ := hfail 0 (Nat.zero_le _)
    rw [Nat.add_zero] at he
    have hd0 : ctxDone a = false := by
      have h0 := hdone 0 (Nat.succ_pos k)
      rwa [Nat.add_zero] at h0
    have hrec := ih fuel' (a + 1) (min (b * 2) cap) (by omega)
      (fun i hi => by
        have hfi := hfail (i + 1) (by omega)
        rwa [show a + (i + 1) = a + 1 + i by omega] at hfi)
      (fun i hi => by
        have hdi := hdone (i + 1) (by omega)
        rwa [show a + (i + 1) = a + 1 + i by omega] at hdi)
      (by
        have hl := hlast
        rwa [show a + (k + 1) = a + 1 + k by omega] at hl)
    rw [connectLoop, he]
    simp [hd0, hrec.1, hrec.2]

/-- Claim C5: in a retry-enabled withSession call with no cached session, if
every Connect attempt up to the k-th fails and the context becomes done during
the backoff wait after the k-th attempt (and not earlier), withSession returns
the cancellation error: outcome cancelled (so the action is never invoked) and
exactly k+1 Connect attempts (no further attempt after cancellation). -/
theorem withSession_cancelBackoff (st : SMState) (inp : WSInput) (b cap fuel k : Nat)
    (hs : st.sess = none) (hr : st.retry = true)
    (hfail : ∀ i, i ≤ k → ∃ e, inp.connect i = .fail e)
    (hdone : ∀ i, i < k → inp.ctxDone i = false)
    (hlast : inp.ctxDone k = true) (hf : k < fuel) :
    (withSession st inp b cap fuel).out = .cancelled ∧
    (withSession st inp b cap fuel).attempts = k + 1 ∧
    ∀ sid, (withSession st inp b cap fuel).out ≠ .ok sid := by
  have h := connectLoop_cancelled inp.connect inp.ctxDone cap k fuel 0 b hf
    (fun i hi => by simpa using hfail i hi)
    (fun i hi => by simpa using hdone i hi)
    (by simpa using hlast)
  rw [withSession_noSess st inp b cap fuel hs, hr]
  refine ⟨?_, ?_, ?_⟩
  · rw [establish_out]
    exact h.1
  · rw [establish_attempts]
    exact h.2
  · intro sid hne
    rw [establish_out, h.1] at hne
    cases hne

/-- Witness for C5 at a concrete input (two failing attempts, context done
during the wait after the second attempt). -/
theorem withSession_cancelBackoff_witness :
    (withSession ⟨none, true⟩ ⟨true, fun _ => .fail 3, fun i => decide (1 ≤ i)⟩
      sessmgrInitialBackoffMs backoffCapMs 5).out = .cancelled :=
  (withSession_cancelBackoff ⟨none, true⟩
    ⟨true, fun _ => .fail 3, fun i => decide (1 ≤ i)⟩
    sessmgrInitialBackoffMs backoffCapMs 5 1 rfl rfl
    (fun i _ => ⟨3, rfl⟩)
    (fun i hi => by
      have : i = 0 := by omega
      subst this
      rfl)
    rfl (by decide)).1

theorem connectLoop_retryTrue_no_connErr (connect : Nat → ConnectOutcome)
    (ctxDone : Nat → Bool) (cap : Nat) :
    ∀ (fuel a b e : Nat),
      (connectLoop true connect ctxDone cap fuel a b).out ≠ .connErr e := by
  intro fuel
  induction fuel with
  | zero => intro a b e h; simp [connectLoop] at h
  | succ n ih =>
    intro a b e h
    rw [connectLoop] at h
    split at h
    · rename_i s heq
      exact absurd (show LoopOut.ok s = LoopOut.connErr e from h) (by simp)
    · rename_i e2 heq
      split at h
      · rename_i hcond
        simp at hcond
      · split at h
        · exact absurd (show LoopOut.cancelled = LoopOut.connErr e from h) (by simp)
        · exact ih (a + 1) (min (b * 2) cap) e h

theorem initPass_cases (st : SMState) (inp : WSInput) (b cap fuel : Nat) :
    (∃ sid, (applyWS st inp b cap fuel).2.out = .ok sid ∧
      initPass st inp b cap fuel =
        ({ (applyWS st inp b cap fuel).1 with retry := true },
         (applyWS st inp b cap fuel).2)) ∨
    ((∀ sid, (applyWS st inp b cap fuel).2.out ≠ .ok sid) ∧
      initPass st inp b cap fuel = applyWS st inp b cap fuel) := by
  unfold initPass
  generalize applyWS st inp b cap fuel = p
  obtain ⟨st1, r⟩ := p
  obtain ⟨o, dl, att, cc, sa⟩ := r
  rcases o with s | e | _ | _
  · exact .inl ⟨s, rfl, rfl⟩
  all_goals exact .inr ⟨(fun sid h => nomatch h), rfl⟩

theorem initPass_retryTrue (st : SMState) (inp : WSInput) (b cap fuel sid : Nat)
    (hok : (initPass st inp b cap fuel).2.out = .ok sid) :
    (initPass st inp b cap fuel).1.retry = true := by
  rcases initPass_cases st inp b cap fuel with ⟨s, hs, heq⟩ | ⟨hne, heq⟩
  · rw [heq]
  · rw [heq] at hok
    exact absurd hok (hne sid)

theorem runCalls_retry (b cap fuel : Nat) :
    ∀ (inps : List WSInput) (st : SMState),
      (runCalls st b cap fuel inps).retry = st.retry := by
  intro inps
  induction inps with
  | nil => intro st; rfl
  | cons inp rest ih =>
    intro st
    rw [runCalls, ih]
    rfl

/-- Claim C3: once the first withSession pass of Run succeeds (its action,
initializeResult, runs), the retry flag is true, it stays true across any
sequence of later withSession calls (withSession itself never writes the
flag), and while it is true a connection failure is never returned as a
connErr outcome: the loop retries instead. -/
theorem retryMode_after_first_success (st : SMState) (inp : WSInput) (b cap fuel sid : Nat)
    (hok : (initPass st inp b cap fuel).2.out = .ok sid) :
    (initPass st inp b cap fuel).1.retry = true ∧
    (∀ inps, (runCalls (initPass st inp b cap fuel).1 b cap fuel inps).retry = true) ∧
    (∀ (st2 : SMState) (inp2 : WSInput), st2.retry = true →
      ∀ e, (withSession st2 inp2 b cap fuel).out ≠ .connErr e) := by
  have h1 := initPass_retryTrue st inp b cap fuel sid hok
  refine ⟨h1, fun inps => by rw [runCalls_retry]; exact h1, ?_⟩
  intro st2 inp2 hr e
  rcases hs2 : st2.sess with _ | s
  · rw [withSession_noSess st2 inp2 b cap fuel hs2, hr]
    intro hne
    rw [establish_out] at hne
    exact connectLoop_retryTrue_no_connErr inp2.connect inp2.ctxDone cap fuel 0 b e hne
  · rcases hp : inp2.pingOk with _ | _
    · rw [withSession_pingFail st2 inp2 b cap fuel s hs2 hp, hr]
      intro hne
      rw [establish_out] at hne
      exact connectLoop_retryTrue_no_connErr inp2.connect inp2.ctxDone cap fuel 0 b e hne
    · rw [withSession_pingGood st2 inp2 b cap fuel s hs2 hp]
      intro hne
      cases hne

/-- Witness for C3 at a concrete input (first Connect attempt succeeds). -/
theorem retryMode_after_first_success_witness :
    (initPass ⟨none, false⟩ ⟨true, fun _ => .ok 5, fun _ => false⟩
      proxyInitialBackoffMs backoffCapMs 3).1.retry = true :=
  (retryMode_after_first_success ⟨none, false⟩ ⟨true, fun _ => .ok 5, fun _ => false⟩
    proxyInitialBackoffMs backoffCapMs 3 5 rfl).1

/-- The delays a run of the connect loop waits out, as a chained relation: the
first delay is the backoff the loop entered with, and each later delay d2
following a delay d satisfies d2 = min(d * 2, cap). -/
def BackoffChain (cap : Nat) : Nat → List Nat → Prop
  | _, [] => True
  | b, d :: rest => d = b ∧ BackoffChain cap (min (b * 2) cap) rest

theorem connectLoop_chain (retry : Bool) (connect : Nat → ConnectOutcome)
    (ctxDone : Nat → Bool) (cap : Nat) :
    ∀ fuel a b,
      BackoffChain cap b (connectLoop retry connect ctxDone cap fuel a b).delays := by
  intro fuel
  induction fuel with
  | zero => intro a b; simp [connectLoop, BackoffChain]
  | succ n ih =>
    intro a b
    rw [connectLoop]
    split
    · exact trivial
    · split
      · exact trivial
      · split
        · exact trivial
        · exact ⟨rfl, ih (a + 1) (min (b * 2) cap)⟩

theorem backoffChain_head (cap b : Nat) (l : List Nat) (h : BackoffChain cap b l) :
    ∀ x, l.head? = some x → x = b := by
  cases l with
  | nil => intro x hx; cases hx
  | cons d rest =>
    intro x hx
    cases hx
    exact h.1

theorem backoffChain_le (cap : Nat) :
    ∀ (l : List Nat) (b : Nat), b ≤ cap → BackoffChain cap b l → ∀ x ∈ l, x ≤ cap := by
  intro l
  induction l with
  | nil => intro b hb hc x hx; cases hx
  | cons d rest ih =>
    intro b hb hc x hx
    rcases List.mem_cons.mp hx with rfl | hx2
    · rw [hc.1]; exact hb
    · exact ih (min (b * 2) cap) (Nat.min_le_right _ _) hc.2 x hx2

theorem backoffChain_step (cap : Nat) :
    ∀ (l : List Nat) (b : Nat), BackoffChain cap b l →
      ∀ (i : Nat) (h1 : i < l.length) (h2 : i + 1 < l.length),
        l.get ⟨i + 1, h2⟩ = min (l.get ⟨i, h1⟩ * 2) cap := by
  intro l
  induction l with
  | nil =>
    intro b hc i h1 h2
    exact absurd h1 (by simp)
  | cons d rest ih =>
    intro b hc i h1 h2
    cases i with
    | zero =>
      cases rest with
      | nil => simp at h2
      | cons x rest2 =>
        show x = min (d * 2) cap
        rw [hc.2.1, hc.1]
    | succ j =>
      exact ih (min (b * 2) cap) hc.2 j
        (by simpa [Nat.succ_lt_succ_iff] using h1)
        (by simpa [Nat.succ_lt_succ_iff] using h2)

/-- Claim C4: within a single retry-enabled withSession call, the successive
backoff delays start at the initial delay, follow min(previous * 2, 30s), in
particular strictly double whenever they are still below the 30 second
ceiling, and never exceed the ceiling. -/
theorem withSession_backoff (st : SMState) (inp : WSInput) (b fuel : Nat)
    (hb : b ≤ backoffCapMs) (d : List Nat)
    (hd : d = (withSession st inp b backoffCapMs fuel).delays) :
    (∀ x, d.head? = some x → x = b) ∧
    (∀ (i : Nat) (h1 : i < d.length) (h2 : i + 1 < d.length),
        d.get ⟨i + 1, h2⟩ = min (d.get ⟨i, h1⟩ * 2) backoffCapMs) ∧
    (∀ (i : Nat) (h1 : i < d.length) (h2 : i + 1 < d.length),
        d.get ⟨i + 1, h2⟩ < backoffCapMs → d.get ⟨i + 1, h2⟩ = d.get ⟨i, h1⟩ * 2) ∧
    (∀ x ∈ d, x ≤ backoffCapMs) := by
  have hchain : BackoffChain backoffCapMs b d := by
    subst hd
    rcases hs : st.sess with _ | s
    · rw [withSession_noSess st inp b backoffCapMs fuel hs, establish_delays]
      exact connectLoop_chain st.retry inp.connect inp.ctxDone backoffCapMs fuel 0 b
    · rcases hp : inp.pingOk with _ | _
      · rw [withSession_pingFail st inp b backoffCapMs fuel s hs hp, establish_delays]
        exact connectLoop_chain st.retry inp.connect inp.ctxDone backoffCapMs fuel 0 b
      · rw [withSession_pingGood st inp b backoffCapMs fuel s hs hp]
        exact trivial
  refine ⟨backoffChain_head backoffCapMs b d hchain,
    backoffChain_step backoffCapMs d b hchain, ?_,
    backoffChain_le backoffCapMs d b hb hchain⟩
  intro i h1 h2 hlt
  have hstep := backoffChain_step backoffCapMs d b hchain i h1 h2
  rw [hstep] at hlt ⊢
  rcases Nat.lt_or_ge (d.get ⟨i, h1⟩ * 2) backoffCapMs with hlt2 | hge
  · rw [Nat.min_eq_left (Nat.le_of_lt hlt2)]
  · rw [Nat.min_eq_right hge] at hlt
    exact absurd hlt (Nat.lt_irrefl _)

/-- Witness for C4 at a concrete input: with every Connect attempt failing
and fuel 7, the sixth delay equals min(fifth delay * 2, cap). -/
theorem withSession_backoff_witness :
    (withSession ⟨none, true⟩ ⟨true, fun _ => .fail 1, fun _ => false⟩
        proxyInitialBackoffMs backoffCapMs 7).delays.get ⟨5, by decide⟩ =
      min ((withSession ⟨none, true⟩ ⟨true, fun _ => .fail 1, fun _ => false⟩
        proxyInitialBackoffMs backoffCapMs 7).delays.get ⟨4, by decide⟩ * 2) backoffCapMs :=
  (withSession_backoff ⟨none, true⟩ ⟨true, fun _ => .fail 1, fun _ => false⟩
    proxyInitialBackoffMs 7 (by decide) _ rfl).2.1 4 (by decide) (by decide)

/-- A tool as listed by the upstream server; the synchronizer consults only
its name (proxy.go lines 139-161), so the other fields are elided. -/
structure Tool where
  name : String
deriving DecidableEq

/-- A prompt as listed by the upstream server; only its name is consulted. -/
structure Prompt where
  name : String
deriving DecidableEq

/-- A resource as listed by the upstream server; only its URI is consulted. -/
structure Resource where
  uri : String
deriving DecidableEq

/-- One mutation of the Local Server Facade performed during a
synchronization pass: a removal (RemoveTools / RemovePrompts /
RemoveResources) or an addition (AddTool / AddPrompt / AddResource). -/
inductive SyncEvent where
  | removed (id1 : String)
  | added (id1 : String)
deriving DecidableEq

/-- The proxy state one capability kind sees: the mirrored name set
(prx.toolNames / prx.promptNames / prx.resourceURIs, a Go map modelled as
its key list), the handlers registered on the local server (identifier
paired with a numeric handler identity, so that an untouched handler keeps
its identity), and the next fresh handler identity. -/
structure MirrorState where
  names : List String
  handlers : List (String × Nat)
  next : Nat
deriving DecidableEq

/-- Insertion of a key into a Go map modelled as its key list. -/
def insertName (l : List String) (n : String) : List String :=
  if l.contains n then l else l ++ [n]

/-- The key set of the map built by inserting every listed identifier
(newNames / newURIs in the update routines). -/
def namesOf (ids : List String) : List String :=
  ids.foldl insertName []

/-- The identifiers collected into the remove slice: mirrored names absent
from the new upstream list. -/
def removedNames (names ids : List String) : List String :=
  names.filter (fun n => !((namesOf ids).contains n))

/-- RemoveTools / RemovePrompts / RemoveResources on the local server: drop
the registrations of the removed identifiers. -/
def keepHandlers (handlers : List (String × Nat)) (rm : List String) :
    List (String × Nat) :=
  handlers.filter (fun p => !(rm.contains p.1))

/-- The add loop: for each listed identifier in order, skip it if it is in
the old mirrored name set, otherwise register a fresh handler for it
(AddTool with prx.toolHandler(tl.Name), and correspondingly for prompts and
resources).  Returns the handler table, the next fresh identity and the
added identifiers, in order. -/
def addEntries (old : List String) : List (String × Nat) → Nat → List String →
    List (String × Nat) × Nat × List String
  | hs, next, [] => (hs, next, [])
  | hs, next, id1 :: rest =>
    if old.contains id1 then addEntries old hs next rest
    else
      match addEntries old (hs ++ [(id1, next)]) (next + 1) rest with
      | (hs1, next1, added) => (hs1, next1, id1 :: added)

/-- One successful synchronization pass over the listed identifiers (the
bodies of updateTools, updatePrompts and updateResources after a successful
list call, which are textually identical up to the identifier field): build
the new name set, remove the handlers of disappeared identifiers, then add
fresh handlers for identifiers not previously mirrored, and replace the
mirrored name set.  Also returns the facade mutations in the order they are
performed. -/
def reconcile (st : MirrorState) (ids : List String) : MirrorState × List SyncEvent :=
  match addEntries st.names (keepHandlers st.handlers (removedNames st.names ids))
      st.next ids with
  | (hs2, next2, added) =>
    (⟨namesOf ids, hs2, next2⟩,
     (removedNames st.names ids).map SyncEvent.removed ++ added.map SyncEvent.added)

/-- updateTools (proxy.go lines 132-163): on a ListTools error return that
error leaving the proxy state untouched and the facade unmutated; otherwise
reconcile against the listed tool names and return a nil error. -/
def updateTools (st : MirrorState) (lr : Except Nat (List Tool)) :
    MirrorState × List SyncEvent × Option Nat :=
  match lr with
  | .error e => (st, [], some e)
  | .ok tools =>
    match reconcile st (tools.map Tool.name) with
    | (st1, evs) => (st1, evs, none)

/-- updatePrompts (proxy.go lines 209-240), identical to updateTools over
prompt names. -/
def updatePrompts (st : MirrorState) (lr : Except Nat (List Prompt)) :
    MirrorState × List SyncEvent × Option Nat :=
  match lr with
  | .error e => (st, [], some e)
  | .ok prompts =>
    match reconcile st (prompts.map Prompt.name) with
    | (st1, evs) => (st1, evs, none)

/-- updateResources (proxy.go lines 279-310), identical to updateTools over
resource URIs. -/
def updateResources (st : MirrorState) (lr : Except Nat (List Resource)) :
    MirrorState × List SyncEvent × Option Nat :=
  match lr with
  | .error e => (st, [], some e)
  | .ok resources =>
    match reconcile st (resources.map Resource.uri) with
    | (st1, evs) => (st1, evs, none)

/-- Claim C7: when the upstream list call fails, each update routine returns
that error with the mirrored name set and the registered handlers exactly as
they were (the state comes back unchanged) and performs no removal or
addition on the facade (no events). -/
theorem update_listError (st : MirrorState) (e : Nat) :
    updateTools st (.error e) = (st, [], some e) ∧
    updatePrompts st (.error e) = (st, [], some e) ∧
    updateResources st (.error e) = (st, [], some e) :=
  ⟨rfl, rfl, rfl⟩

theorem mem_insertName (l : List String) (n x : String) :
    x ∈ insertName l n ↔ x ∈ l ∨ x = n := by
  unfold insertName
  split
  · rename_i h
    have hn : n ∈ l := by simpa using h
    constructor
    · exact Or.inl
    · rintro (hx | rfl)
      · exact hx
      · exact hn
  · simp

theorem mem_foldl_insertName (ids : List String) :
    ∀ (acc : List String) (x : String),
      x ∈ ids.foldl insertName acc ↔ x ∈ acc ∨ x ∈ ids := by
  induction ids with
  | nil => intro acc x; simp
  | cons n rest ih =>
    intro acc x
    rw [List.foldl_cons, ih, mem_insertName]
    constructor
    · rintro ((hx | rfl) | hx)
      · exact Or.inl hx
      · exact Or.inr (List.mem_cons_self _ _)
      · exact Or.inr (List.mem_cons_of_mem _ hx)
    · rintro (hx | hx)
      · exact Or.inl (Or.inl hx)
      · rcases List.mem_cons.mp hx with rfl | hx2
        · exact Or.inl (Or.inr rfl)
        · exact Or.inr hx2

theorem mem_namesOf (ids : List String) (x : String) : x ∈ namesOf ids ↔ x ∈ ids := by
  unfold namesOf
  rw [mem_foldl_insertName]
  simp

theorem mem_removedNames (names ids : List String) (x : String) :
    x ∈ removedNames names ids ↔ x ∈ names ∧ x ∉ ids := by
  simp [removedNames, List.mem_filter, mem_namesOf]

theorem mem_keepHandlers (handlers : List (String × Nat)) (rm : List String)
    (p : String × Nat) :
    p ∈ keepHandlers handlers rm ↔ p ∈ handlers ∧ p.1 ∉ rm := by
  simp [keepHandlers, List.mem_filter]

theorem mem_keys_keepHandlers (handlers : List (String × Nat)) (rm : List String)
    (x : String) :
    x ∈ (keepHandlers handlers rm).map Prod.fst ↔
      x ∈ handlers.map Prod.fst ∧ x ∉ rm := by
  simp only [List.mem_map]
  constructor
  · rintro ⟨p, hp, rfl⟩
    rw [mem_keepHandlers] at hp
    exact ⟨⟨p, hp.1, rfl⟩, hp.2⟩
  · rintro ⟨⟨p, hp, rfl⟩, hrm⟩
    exact ⟨p, (mem_keepHandlers handlers rm p).mpr ⟨hp, hrm⟩, rfl⟩

theorem lookup_filter_of_pred (q : String → Bool) (a : String) (hq : q a = true) :
    ∀ l : List (String × Nat),
      List.lookup a (l.filter (fun p => q p.1)) = List.lookup a l := by
  intro l
  induction l with
  | nil => rfl
  | cons p rest ih =>
    obtain ⟨k, v⟩ := p
    rw [List.filter_cons]
    by_cases hk : a = k
    · subst hk
      simp only [hq, if_true]
      simp [List.lookup]
    · have hb : (a == k) = false := beq_eq_false_iff_ne.mpr hk
      split
      · simp only [List.lookup, hb]
        exact ih
      · simp only [List.lookup, hb]
        exact ih

theorem lookup_keepHandlers (handlers : List (String × Nat)) (rm : List String)
    (a : String) (ha : a ∉ rm) :
    List.lookup a (keepHandlers handlers rm) = List.lookup a handlers := by
  have hq : (!(rm.contains a)) = true := by simpa using ha
  exact lookup_filter_of_pred (fun n => !(rm.contains n)) a hq handlers

theorem lookup_append_some (a : String) (v : Nat) :
    ∀ (l1 l2 : List (String × Nat)), List.lookup a l1 = some v →
      List.lookup a (l1 ++ l2) = some v := by
  intro l1
  induction l1 with
  | nil => intro l2 h; cases h
  | cons p rest ih =>
    intro l2 h
    obtain ⟨k, w⟩ := p
    rw [List.cons_append]
    by_cases hk : a = k
    · subst hk
      simp [List.lookup] at h ⊢
      exact h
    · have hb : (a == k) = false := beq_eq_false_iff_ne.mpr hk
      simp only [List.lookup, hb] at h ⊢
      exact ih l2 h

theorem lookup_some_of_mem_keys (a : String) :
    ∀ l : List (String × Nat), a ∈ l.map Prod.fst → ∃ v, List.lookup a l = some v := by
  intro l
  induction l with
  | nil => intro h; cases h
  | cons p rest ih =>
    intro h
    obtain ⟨k, w⟩ := p
    by_cases hk : a = k
    · subst hk
      exact ⟨w, by simp [List.lookup]⟩
    · have hb : (a == k) = false := beq_eq_false_iff_ne.mpr hk
      have h2 : a ∈ rest.map Prod.fst := by
        simp only [List.map_cons] at h
        rcases List.mem_cons.mp h with h3 | h3
        · exact absurd h3 hk
        · exact h3
      obtain ⟨v, hv⟩ := ih h2
      refine ⟨v, ?_⟩
      simp only [List.lookup, hb]
      exact hv

theorem addEntries_spec (old : List String) :
    ∀ (ids : List String) (hs : List (String × Nat)) (next : Nat),
      ∃ ne : List (String × Nat),
        (addEntries old hs next ids).1 = hs ++ ne ∧
        ne.map Prod.fst = ids.filter (fun n => !(old.contains n)) ∧
        (∀ p ∈ ne, next ≤ p.2) ∧
        (addEntries old hs next ids).2.2 = ids.filter (fun n => !(old.contains n)) := by
  intro ids
  induction ids with
  | nil =>
    intro hs next
    exact ⟨[], by simp [addEntries], rfl,
      (fun p hp => absurd hp (List.not_mem_nil p)), by simp [addEntries]⟩
  | cons id1 rest ih =>
    intro hs next
    by_cases hc : old.contains id1 = true
    · have hm : id1 ∈ old := by simpa using hc
      obtain ⟨ne, h1, h2, h3, h4⟩ := ih hs next
      refine ⟨ne, ?_, ?_, h3, ?_⟩
      · rw [addEntries, if_pos hc]
        exact h1
      · rw [h2, List.filter_cons]
        simp [hm]
      · rw [addEntries, if_pos hc, h4, List.filter_cons]
        simp [hm]
    · have hc2 : old.contains id1 = false := by simpa using hc
      have hm2 : id1 ∉ old := by simpa using hc2
      obtain ⟨ne, h1, h2, h3, h4⟩ := ih (hs ++ [(id1, next)]) (next + 1)
      have key : addEntries old hs next (id1 :: rest) =
          ((addEntries old (hs ++ [(id1, next)]) (next + 1) rest).1,
           (addEntries old (hs ++ [(id1, next)]) (next + 1) rest).2.1,
           id1 :: (addEntries old (hs ++ [(id1, next)]) (next + 1) rest).2.2) := by
        rw [addEntries, if_neg hc]
      rw [key]
      refine ⟨(id1, next) :: ne, ?_, ?_, ?_, ?_⟩
      · show (addEntries old (hs ++ [(id1, next)]) (next + 1) rest).1 =
          hs ++ (id1, next) :: ne
        rw [h1]
        simp
      · rw [List.map_cons, h2, List.filter_cons]
        simp [hm2]
      · intro p hp
        rcases List.mem_cons.mp hp with rfl | hp2
        · exact Nat.le_refl next
        · exact Nat.le_trans (Nat.le_succ next) (h3 p hp2)
      · show id1 :: (addEntries old (hs ++ [(id1, next)]) (next + 1) rest).2.2 =
          (id1 :: rest).filter (fun n => !(old.contains n))
        rw [h4, List.filter_cons]
        simp [hm2]

theorem events_order (A B : List SyncEvent)
    (hA : ∀ a ∈ A, ∃ n, a = SyncEvent.removed n)
    (hB : ∀ b2 ∈ B, ∃ n, b2 = SyncEvent.added n) :
    ∀ (i j : Nat) (hi : i < (A ++ B).length) (hj : j < (A ++ B).length),
      (∃ n, (A ++ B).get ⟨i, hi⟩ = SyncEvent.removed n) →
      (∃ m, (A ++ B).get ⟨j, hj⟩ = SyncEvent.added m) → i < j := by
  intro i j hi hj hrem hadd
  have hiA : i < A.length := by
    by_contra hle
    push_neg at hle
    have hmem : (A ++ B).get ⟨i, hi⟩ ∈ B := by
      rw [List.get_eq_getElem, List.getElem_append_right hle]
      exact List.getElem_mem _
    obtain ⟨n, hn⟩ := hrem
    obtain ⟨m, hm⟩ := hB _ hmem
    rw [hn] at hm
    cases hm
  have hjB : A.length ≤ j := by
    by_contra hlt
    push_neg at hlt
    have hmem : (A ++ B).get ⟨j, hj⟩ ∈ A := by
      rw [List.get_eq_getElem, List.getElem_append_left hlt]
      exact List.getElem_mem _
    obtain ⟨m, hm⟩ := hadd
    obtain ⟨n, hn⟩ := hA _ hmem
    rw [hm] at hn
    cases hn
  omega

theorem not_contains_iff (l : List String) (n : String) :
    (!(l.contains n)) = true ↔ n ∉ l := by
  simp

/-- What claim C1 asserts of one successful synchronization pass from state
st over the upstream identifier list ids, about the resulting state and the
ordered facade mutations: the mirrored set becomes exactly the listed
identifier set; exactly the stale identifiers (mirrored but no longer
listed) are removed; every removal precedes every addition; exactly the new
identifiers (listed but not mirrored) are added; retained identifiers keep
their handler untouched (same identity); added identifiers get handlers
fresh with respect to every previously registered one; and afterwards the
registrations are exactly the listed identifiers, with no double
registration. -/
def SyncSpec (st : MirrorState) (ids : List String) (res : MirrorState × List SyncEvent) :
    Prop :=
  (∀ n, n ∈ res.1.names ↔ n ∈ ids) ∧
  (∀ n, SyncEvent.removed n ∈ res.2 ↔ (n ∈ st.names ∧ n ∉ ids)) ∧
  (∀ n, SyncEvent.added n ∈ res.2 ↔ (n ∈ ids ∧ n ∉ st.names)) ∧
  (∀ (i j : Nat) (hi : i < res.2.length) (hj : j < res.2.length),
      (∃ n, res.2.get ⟨i, hi⟩ = SyncEvent.removed n) →
      (∃ m, res.2.get ⟨j, hj⟩ = SyncEvent.added m) → i < j) ∧
  (∀ n, n ∈ st.names → n ∈ ids →
      List.lookup n res.1.handlers = List.lookup n st.handlers) ∧
  (∀ n v, n ∉ st.names → (n, v) ∈ res.1.handlers →
      st.next ≤ v ∧ ∀ p ∈ st.handlers, p.2 ≠ v) ∧
  (∀ n, n ∈ res.1.handlers.map Prod.fst ↔ n ∈ ids) ∧
  (res.1.handlers.map Prod.fst).Nodup

theorem reconcile_spec (st : MirrorState) (ids : List String)
    (hk : ∀ n, n ∈ st.handlers.map Prod.fst ↔ n ∈ st.names)
    (hnd : (st.handlers.map Prod.fst).Nodup)
    (hf : ∀ p ∈ st.handlers, p.2 < st.next)
    (hids : ids.Nodup) :
    SyncSpec st ids (reconcile st ids) := by
  obtain ⟨ne, h1, h2, h3, h4⟩ := addEntries_spec st.names ids
    (keepHandlers st.handlers (removedNames st.names ids)) st.next
  have e1 : (reconcile st ids).1.names = namesOf ids := rfl
  have e2 : (reconcile st ids).1.handlers =
      (addEntries st.names (keepHandlers st.handlers (removedNames st.names ids))
        st.next ids).1 := rfl
  have e3 : (reconcile st ids).2 =
      (removedNames st.names ids).map SyncEvent.removed ++
        ((addEntries st.names (keepHandlers st.handlers (removedNames st.names ids))
          st.next ids).2.2).map SyncEvent.added := rfl
  refine ⟨?_, ?_, ?_, ?_, ?_, ?_, ?_, ?_⟩
  · intro n
    rw [e1, mem_namesOf]
  · intro n
    rw [e3, List.mem_append]
    constructor
    · rintro (h | h)
      · rw [List.mem_map] at h
        obtain ⟨x, hx, he⟩ := h
        cases he
        exact (mem_removedNames _ _ _).mp hx
      · rw [List.mem_map] at h
        obtain ⟨x, hx, he⟩ := h
        cases he
    · intro h
      exact Or.inl (List.mem_map_of_mem _ ((mem_removedNames _ _ _).mpr h))
  · intro n
    rw [e3, List.mem_append]
    constructor
    · rintro (h | h)
      · rw [List.mem_map] at h
        obtain ⟨x, hx, he⟩ := h
        cases he
      · rw [List.mem_map] at h
        obtain ⟨x, hx, he⟩ := h
        cases he
        rw [h4, List.mem_filter] at hx
        exact ⟨hx.1, (not_contains_iff _ _).mp hx.2⟩
    · intro h
      refine Or.inr (List.mem_map_of_mem _ ?_)
      rw [h4, List.mem_filter]
      exact ⟨h.1, (not_contains_iff _ _).mpr h.2⟩
  · intro i j hi hj hrem hadd
    rw [e3] at hi hj
    have := events_order ((removedNames st.names ids).map SyncEvent.removed)
      (((addEntries st.names (keepHandlers st.handlers (removedNames st.names ids))
        st.next ids).2.2).map SyncEvent.added)
      (fun a ha => by
        rw [List.mem_map] at ha
        obtain ⟨x, hx, he⟩ := ha
        exact ⟨x, he.symm⟩)
      (fun b2 hb => by
        rw [List.mem_map] at hb
        obtain ⟨x, hx, he⟩ := hb
        exact ⟨x, he.symm⟩)
      i j hi hj
    exact this hrem hadd
  · intro n hnM hnS
    have hnotrm : n ∉ removedNames st.names ids := by
      rw [mem_removedNames]
      intro hcon
      exact hcon.2 hnS
    have hkeys : n ∈ (keepHandlers st.handlers (removedNames st.names ids)).map Prod.fst :=
      (mem_keys_keepHandlers _ _ _).mpr ⟨(hk n).mpr hnM, hnotrm⟩
    obtain ⟨v, hv⟩ := lookup_some_of_mem_keys n _ hkeys
    rw [e2, h1, lookup_append_some n v _ ne hv,
      ← lookup_keepHandlers st.handlers (removedNames st.names ids) n hnotrm]
    exact hv.symm
  · intro n v hnM hmem
    rw [e2, h1, List.mem_append] at hmem
    rcases hmem with h | h
    · exfalso
      have hm := (mem_keepHandlers _ _ _).mp h
      exact hnM ((hk n).mp (List.mem_map_of_mem Prod.fst hm.1))
    · have hle := h3 (n, v) h
      refine ⟨hle, ?_⟩
      intro p hp
      have := hf p hp
      omega
  · intro n
    rw [e2, h1, List.map_append, List.mem_append, mem_keys_keepHandlers, h2]
    constructor
    · rintro (⟨hkeys, hnrm⟩ | hmem)
      · have hnM := (hk n).mp hkeys
        rw [mem_removedNames] at hnrm
        by_cases hin : n ∈ ids
        · exact hin
        · exact absurd ⟨hnM, hin⟩ hnrm
      · rw [List.mem_filter] at hmem
        exact hmem.1
    · intro hin
      by_cases hnM : n ∈ st.names
      · refine Or.inl ⟨(hk n).mpr hnM, ?_⟩
        rw [mem_removedNames]
        intro hcon
        exact hcon.2 hin
      · refine Or.inr ?_
        rw [List.mem_filter]
        exact ⟨hin, (not_contains_iff _ _).mpr hnM⟩
  · rw [e2, h1, List.map_append]
    refine List.Nodup.append ?_ ?_ ?_
    · exact List.Nodup.sublist (List.Sublist.map Prod.fst (List.filter_sublist _)) hnd
    · rw [h2]
      exact List.Nodup.sublist (List.filter_sublist _) hids
    · intro n hn1 hn2
      rw [mem_keys_keepHandlers] at hn1
      rw [h2, List.mem_filter] at hn2
      exact ((not_contains_iff _ _).mp hn2.2) ((hk n).mp hn1.1)

/-- Claim C1: a successful synchronization pass of updateTools,
updatePrompts or updateResources over an upstream list with identifier set
S, from a state whose registered handlers are exactly its mirrored name set
M (with distinct fresh identities): the pass returns a nil error and its
reconciliation satisfies SyncSpec, i.e. the mirrored set becomes exactly S,
exactly M minus S is deregistered, every removal happens before any
addition, exactly S minus M gets a newly created handler, and the handlers
of identifiers in both S and M are left untouched (same identity). -/
theorem updates_reconcile (st : MirrorState) (tools : List Tool)
    (prompts : List Prompt) (resources : List Resource)
    (hk : ∀ n, n ∈ st.handlers.map Prod.fst ↔ n ∈ st.names)
    (hnd : (st.handlers.map Prod.fst).Nodup)
    (hf : ∀ p ∈ st.handlers, p.2 < st.next)
    (ht : (tools.map Tool.name).Nodup)
    (hp : (prompts.map Prompt.name).Nodup)
    (hr : (resources.map Resource.uri).Nodup) :
    (updateTools st (.ok tools) =
      ((reconcile st (tools.map Tool.name)).1,
       (reconcile st (tools.map Tool.name)).2, none) ∧
     SyncSpec st (tools.map Tool.name) (reconcile st (tools.map Tool.name))) ∧
    (updatePrompts st (.ok prompts) =
      ((reconcile st (prompts.map Prompt.name)).1,
       (reconcile st (prompts.map Prompt.name)).2, none) ∧
     SyncSpec st (prompts.map Prompt.name) (reconcile st (prompts.map Prompt.name))) ∧
    (updateResources st (.ok resources) =
      ((reconcile st (resources.map Resource.uri)).1,
       (reconcile st (resources.map Resource.uri)).2, none) ∧
     SyncSpec st (resources.map Resource.uri) (reconcile st (resources.map Resource.uri))) :=
  ⟨⟨rfl, reconcile_spec st (tools.map Tool.name) hk hnd hf ht⟩,
   ⟨rfl, reconcile_spec st (prompts.map Prompt.name) hk hnd hf hp⟩,
   ⟨rfl, reconcile_spec st (resources.map Resource.uri) hk hnd hf hr⟩⟩

/-- Witness for C1 at a concrete input: mirrored set is a and b, upstream
now lists b and c. -/
theorem updates_reconcile_witness :
    updateTools ⟨["a", "b"], [("a", 0), ("b", 1)], 2⟩ (.ok [⟨"b"⟩, ⟨"c"⟩]) =
      ((reconcile ⟨["a", "b"], [("a", 0), ("b", 1)], 2⟩ ["b", "c"]).1,
       (reconcile ⟨["a", "b"], [("a", 0), ("b", 1)], 2⟩ ["b", "c"]).2, none) :=
  (updates_reconcile ⟨["a", "b"], [("a", 0), ("b", 1)], 2⟩ [⟨"b"⟩, ⟨"c"⟩] [⟨"p"⟩] [⟨"r"⟩]
    (fun n => Iff.rfl) (by decide) (by decide) (by decide) (by decide) (by decide)).1.1

/-- Handler-level errors as seen by the local caller of a forwarded tool
call: a connection establishment error or cancellation propagated out of
withSession, a json.Unmarshal decode error, an upstream CallTool error, or
the out-of-fuel model artifact. -/
inductive PErr where
  | conn (e : Nat)
  | cancelled
  | decode (e : Nat)
  | upstream (e : Nat)
  | noFuel
deriving DecidableEq

/-- Result of the action toolHandler passes to withSession: what it returns,
and, when CallTool was invoked, the arguments it forwarded (some none means
CallTool was invoked with nil arguments; none means CallTool was never
invoked). -/
structure BodyResult where
  result : Except PErr Nat
  upstreamArgs : Option (Option Nat)

/-- The body of the closure returned by toolHandler (proxy.go lines
169-189), run against a healthy session: when the raw argument bytes are
non-empty, decode them (json.Unmarshal, modelled by the decode oracle whose
ok value stands for the decoded map) and fail on a decode error; then
forward via CallTool (the callTool oracle), with nil arguments when the raw
bytes were empty. -/
def toolHandlerBody (decode : List Nat → Except Nat Nat)
    (callTool : String → Option Nat → Except Nat Nat)
    (name : String) (rawArgs : List Nat) : BodyResult :=
  if rawArgs.length > 0 then
    match decode rawArgs with
    | .error e => ⟨.error (.decode e), none⟩
    | .ok a =>
      match callTool name (some a) with
      | .error e => ⟨.error (.upstream e), some (some a)⟩
      | .ok r => ⟨.ok r, some (some a)⟩
  else
    match callTool name none with
    | .error e => ⟨.error (.upstream e), some none⟩
    | .ok r => ⟨.ok r, some none⟩

/-- Observable result of one local tool call through the proxy: what the
local caller gets back, what (if anything) was forwarded to CallTool, and
the session effects of the surrounding withSession call. -/
structure THResult where
  result : Except PErr Nat
  upstreamArgs : Option (Option Nat)
  closedCached : Bool
  attempts : Nat
  sessAfter : Option Nat

/-- toolHandler (proxy.go lines 165-196): run the forwarding body through
withSession; a withSession failure (establishment error or cancellation) is
returned without the body ever running, otherwise the body's result is
returned as is. -/
def toolHandler (st : SMState) (inp : WSInput) (b cap fuel : Nat)
    (decode : List Nat → Except Nat Nat)
    (callTool : String → Option Nat → Except Nat Nat)
    (name : String) (rawArgs : List Nat) : THResult :=
  match withSession st inp b cap fuel with
  | ⟨.ok _, _, attempts, closed, sessAfter⟩ =>
    match toolHandlerBody decode callTool name rawArgs with
    | ⟨res, args⟩ => ⟨res, args, closed, attempts, sessAfter⟩
  | ⟨.connErr e, _, attempts, closed, sessAfter⟩ =>
    ⟨.error (.conn e), none, closed, attempts, sessAfter⟩
  | ⟨.cancelled, _, attempts, closed, sessAfter⟩ =>
    ⟨.error .cancelled, none, closed, attempts, sessAfter⟩
  | ⟨.noFuel, _, attempts, closed, sessAfter⟩ =>
    ⟨.error .noFuel, none, closed, attempts, sessAfter⟩

/-- Claim C8: a locally received tool call with non-empty arguments that
fail to decode, against a cached healthy session, returns that decode error
to the local caller, never invokes CallTool, performs no Connect attempt
(nothing is retried), and neither closes nor replaces the cached session. -/
theorem toolHandler_decodeError (st : SMState) (inp : WSInput) (b cap fuel : Nat)
    (decode : List Nat → Except Nat Nat) (callTool : String → Option Nat → Except Nat Nat)
    (name : String) (rawArgs : List Nat) (s e : Nat)
    (hs : st.sess = some s) (hping : inp.pingOk = true)
    (hlen : 0 < rawArgs.length) (hd : decode rawArgs = .error e) :
    toolHandler st inp b cap fuel decode callTool name rawArgs =
      ⟨.error (.decode e), none, false, 0, some s⟩ := by
  unfold toolHandler toolHandlerBody
  rw [withSession_pingGood st inp b cap fuel s hs hping, if_pos hlen, hd]

/-- Witness for C8 at a concrete input. -/
theorem toolHandler_decodeError_witness :
    toolHandler ⟨some 4, true⟩ ⟨true, fun _ => .ok 9, fun _ => false⟩
        proxyInitialBackoffMs backoffCapMs 3 (fun _ => .error 11) (fun _ _ => .ok 0)
        ("t") [1] =
      ⟨.error (.decode 11), none, false, 0, some 4⟩ :=
  toolHandler_decodeError ⟨some 4, true⟩ ⟨true, fun _ => .ok 9, fun _ => false⟩
    proxyInitialBackoffMs backoffCapMs 3 (fun _ => .error 11) (fun _ _ => .ok 0)
    ("t") [1] 4 11 rfl rfl (by decide) rfl

/-- Claim C10: a locally received tool call whose encoded arguments are
empty (zero length) skips the decode step entirely: against a cached
healthy session the handler forwards the call upstream with nil arguments,
its behavior does not depend on the decode oracle at all, and a decode
error can never be its result. -/
theorem toolHandler_emptyArgs (st : SMState) (inp : WSInput) (b cap fuel : Nat)
    (decode decode2 : List Nat → Except Nat Nat)
    (callTool : String → Option Nat → Except Nat Nat)
    (name : String) (rawArgs : List Nat) (s : Nat)
    (hs : st.sess = some s) (hping : inp.pingOk = true)
    (hlen : rawArgs.length = 0) :
    (toolHandler st inp b cap fuel decode callTool name rawArgs).upstreamArgs = some none ∧
    toolHandler st inp b cap fuel decode callTool name rawArgs =
      toolHandler st inp b cap fuel decode2 callTool name rawArgs ∧
    (∀ e, (toolHandler st inp b cap fuel decode callTool name rawArgs).result ≠
      .error (.decode e)) := by
  have hth : ∀ dec : List Nat → Except Nat Nat,
      toolHandler st inp b cap fuel dec callTool name rawArgs =
        match callTool name none with
        | .error e => ⟨.error (.upstream e), some none, false, 0, some s⟩
        | .ok r => ⟨.ok r, some none, false, 0, some s⟩ := by
    intro dec
    unfold toolHandler toolHandlerBody
    rw [withSession_pingGood st inp b cap fuel s hs hping, if_neg (by omega)]
    rcases callTool name none with e | r <;> rfl
  refine ⟨?_, ?_, ?_⟩
  · rw [hth decode]
    rcases callTool name none with e | r <;> rfl
  · rw [hth decode, hth decode2]
  · intro e2 hc
    rw [hth decode] at hc
    rcases h : callTool name none with e3 | r <;> rw [h] at hc <;> simp at hc

/-- Witness for C10 at a concrete input. -/
theorem toolHandler_emptyArgs_witness :
    (toolHandler ⟨some 4, true⟩ ⟨true, fun _ => .ok 9, fun _ => false⟩
        proxyInitialBackoffMs backoffCapMs 3 (fun _ => .error 11) (fun _ _ => .ok 2)
        ("t") []).upstreamArgs = some none :=
  (toolHandler_emptyArgs ⟨some 4, true⟩ ⟨true, fun _ => .ok 9, fun _ => false⟩
    proxyInitialBackoffMs backoffCapMs 3 (fun _ => .error 11) (fun _ => .ok 0)
    (fun _ _ => .ok 2) ("t") [] 4 rfl rfl rfl).1

/-- An outbound HTTP request: its header table and an opaque rest (method,
URL, body), which header injection must not touch. -/
structure Request where
  headers : List (String × String)
  rest : String
deriving DecidableEq

/-- net/http Header.Set: replace any existing values of the key with the
single given value. -/
def setHeader (hs : List (String × String)) (k v : String) : List (String × String) :=
  hs.filter (fun p => p.1 != k) ++ [(k, v)]

/-- The HTTP client used when building outbound transports (httpClient in
proxy.go lines 106-112 and sessmgr.go lines 78-84): with a configured
credential, a client whose transport is the proxy or session manager itself
(its RoundTrip method); otherwise http.DefaultClient. -/
inductive HClient where
  | credentialed (apiKey header : String)
  | defaultClient
deriving DecidableEq

/-- httpClient: credentialed client exactly when the API key is non-empty. -/
def httpClient (apiKey header : String) : HClient :=
  if apiKey ≠ "" then .credentialed apiKey header else .defaultClient

/-- RoundTrip (proxy.go lines 114-120, sessmgr.go lines 86-90): clone the
request, set the credential header on the clone, and hand the clone to
http.DefaultTransport.  Requests live in a heap (a list indexed by
position) so that cloning is observable: the result is the new heap and the
index of the request handed to the default transport. -/
def roundTrip (apiKey header : String) (heap : List Request) (i : Nat) :
    List Request × Nat :=
  match heap.get? i with
  | none => (heap, i)
  | some r =>
    (heap ++ [{ r with headers := setHeader r.headers header apiKey }], heap.length)

/-- Sending a request through the configured client: the credentialed client
goes through RoundTrip; the default client hands the request to the default
transport unchanged. -/
def sendViaClient (c : HClient) (heap : List Request) (i : Nat) : List Request × Nat :=
  match c with
  | .credentialed k h => roundTrip k h heap i
  | .defaultClient => (heap, i)

theorem lookup_setHeader_self (k v : String) :
    ∀ hs : List (String × String), List.lookup k (setHeader hs k v) = some v := by
  intro hs
  induction hs with
  | nil => simp [setHeader, List.lookup]
  | cons p rest2 ih =>
    obtain ⟨k2, v2⟩ := p
    rw [setHeader] at ih ⊢
    rw [List.filter_cons]
    by_cases hk : k2 = k
    · subst hk
      rw [if_neg (by simp)]
      exact ih
    · rw [if_pos (by simpa using hk), List.cons_append]
      have hb : (k == k2) = false := beq_eq_false_iff_ne.mpr (Ne.symm hk)
      simp only [List.lookup, hb]
      exact ih

theorem lookup_setHeader_other (k k2 v : String) (hne : k2 ≠ k) :
    ∀ hs : List (String × String),
      List.lookup k2 (setHeader hs k v) = List.lookup k2 hs := by
  intro hs
  have hb2 : (k2 == k) = false := beq_eq_false_iff_ne.mpr hne
  induction hs with
  | nil =>
    rw [setHeader]
    simp [List.lookup, hb2]
  | cons p rest2 ih =>
    obtain ⟨k3, v3⟩ := p
    rw [setHeader] at ih ⊢
    rw [List.filter_cons]
    by_cases h3 : k3 = k
    · subst h3
      rw [if_neg (by simp), ih]
      simp only [List.lookup, hb2]
    · rw [if_pos (by simpa using h3), List.cons_append]
      by_cases h23 : k2 = k3
      · subst h23
        simp [List.lookup]
      · have hb3 : (k2 == k3) = false := beq_eq_false_iff_ne.mpr h23
        simp only [List.lookup, hb3]
        exact ih

/-- Claim C9: with a configured (non-empty) credential, outbound requests go
through the credentialed client, which hands the default transport a clone
of the request with the credential header set to the credential value,
every other header and the rest of the request unchanged, while the
original request object in the heap is not mutated; with no credential
configured, the default client is used and the request passes through
unchanged, with no header injected. -/
theorem credentialHeader (apiKey header : String) (heap : List Request) (i : Nat)
    (r : Request) (hr : heap.get? i = some r) :
    (apiKey ≠ "" →
      httpClient apiKey header = .credentialed apiKey header ∧
      (sendViaClient (httpClient apiKey header) heap i).1.get? i = some r ∧
      (sendViaClient (httpClient apiKey header) heap i).1.get?
          (sendViaClient (httpClient apiKey header) heap i).2 =
        some { r with headers := setHeader r.headers header apiKey } ∧
      List.lookup header (setHeader r.headers header apiKey) = some apiKey ∧
      Request.rest { r with headers := setHeader r.headers header apiKey } = r.rest ∧
      (∀ k2, k2 ≠ header →
        List.lookup k2 (setHeader r.headers header apiKey) = List.lookup k2 r.headers)) ∧
    (apiKey = "" →
      httpClient apiKey header = .defaultClient ∧
      sendViaClient (httpClient apiKey header) heap i = (heap, i)) := by
  constructor
  · intro hk
    have hcl : httpClient apiKey header = .credentialed apiKey header := by
      rw [httpClient, if_pos hk]
    rw [hcl]
    have hi : i < heap.length := by
      by_contra hge
      push_neg at hge
      rw [List.get?_eq_getElem?, List.getElem?_eq_none hge] at hr
      cases hr
    refine ⟨rfl, ?_, ?_, lookup_setHeader_self header apiKey r.headers, rfl,
      fun k2 hk2 => lookup_setHeader_other header k2 apiKey hk2 r.headers⟩
    · show (roundTrip apiKey header heap i).1.get? i = some r
      rw [roundTrip, hr]
      show (heap ++ [{ r with headers := setHeader r.headers header apiKey }]).get? i = some r
      rw [List.get?_eq_getElem?, List.getElem?_append_left hi, ← List.get?_eq_getElem?]
      exact hr
    · show (roundTrip apiKey header heap i).1.get? (roundTrip apiKey header heap i).2 =
        some { r with headers := setHeader r.headers header apiKey }
      rw [roundTrip, hr]
      show (heap ++ [{ r with headers := setHeader r.headers header apiKey }]).get?
          heap.length =
        some { r with headers := setHeader r.headers header apiKey }
      rw [List.get?_eq_getElem?]
      simp
  · intro hk
    have hcl : httpClient apiKey header = .defaultClient := by
      rw [httpClient, if_neg (by simp [hk])]
    exact ⟨hcl, by rw [hcl]; rfl⟩

/-- Witness for C9 at a concrete input: credential k under header H is
injected and looked up on the cloned request. -/
theorem credentialHeader_witness :
    List.lookup ("H") (setHeader [("A", "1")] ("H") ("k")) = some ("k") :=
  ((credentialHeader ("k") ("H") [⟨[("A", "1")], ("b")⟩] 0 ⟨[("A", "1")], ("b")⟩ rfl).1
    (by decide)).2.2.2.1

end Gmcpt
